import Mathlib

/-!
Verification of the comment normalization and relevance-filtering pipeline
of the pr2cursor repository (`src/normalize.ts`, types from `src/types.ts`).

Modelling conventions:
* Timestamp strings are represented by their parsed epoch-millisecond value
  (`Int`); `new Date(s)` and `Date.prototype.getTime` become the identity, and
  `Date` comparisons become `Int` comparisons.  Nullable/optional fields become
  `Option`.
* JavaScript string operations (`toLowerCase`, `endsWith`, `includes`, `trim`)
  are modelled character-wise on `String.data`.
* The JavaScript `Map` used by `normalizeReviews` is modelled as an association
  list with insertion-order semantics: `set` on an existing key replaces the
  value in place, `set` on a fresh key appends, and iteration is list order —
  exactly the ECMAScript `Map` iteration contract.
* `Array.prototype.sort` (guaranteed stable since ES2019) is modelled by
  `List.mergeSort`.
-/

-- ─────────────────────────────────────────────────────────────────────────────
-- JavaScript string primitives
-- ─────────────────────────────────────────────────────────────────────────────

/-- Character-wise model of `String.prototype.startsWith` on char lists. -/
def startsWithChars : List Char → List Char → Bool
  | _, [] => true
  | [], _ :: _ => false
  | a :: as, b :: bs => a == b && startsWithChars as bs

/-- Character-wise model of `String.prototype.endsWith` on char lists. -/
def endsWithChars (l pat : List Char) : Bool :=
  startsWithChars l.reverse pat.reverse

/-- Character-wise model of `String.prototype.includes` on char lists. -/
def containsChars : List Char → List Char → Bool
  | l, pat =>
    startsWithChars l pat ||
      (match l with
       | [] => false
       | _ :: t => containsChars t pat)

/-- Model of `String.prototype.toLowerCase` (ASCII-faithful). -/
def jsToLowerCase (s : String) : String :=
  ⟨s.data.map Char.toLower⟩

/-- Model of `String.prototype.endsWith`. -/
def jsEndsWith (s pat : String) : Bool :=
  endsWithChars s.data pat.data

/-- Model of `String.prototype.includes`. -/
def jsIncludes (s pat : String) : Bool :=
  containsChars s.data pat.data

/-- Model of `String.prototype.trim`: strip leading and trailing whitespace. -/
def jsTrim (s : String) : String :=
  ⟨((s.data.dropWhile Char.isWhitespace).reverse.dropWhile Char.isWhitespace).reverse⟩

-- ─────────────────────────────────────────────────────────────────────────────
-- Bot detection (normalize.ts lines 12-41)
-- ─────────────────────────────────────────────────────────────────────────────

def BOT_AUTHOR_PATTERNS : List String :=
  ["github-actions", "sonar", "sonarcloud", "sonarqube", "dependabot",
   "renovate", "codecov", "vercel", "netlify", "circleci", "travisci",
   "sizebot", "[bot]", "-bot", "bot-"]

def endsWithBot (author : String) : Bool :=
  jsEndsWith (jsToLowerCase author) "bot"

def isLikelyBot (author : String) : Bool :=
  let authorLower := jsToLowerCase author
  if endsWithBot author then true
  else if BOT_AUTHOR_PATTERNS.any (fun pattern => jsIncludes authorLower pattern) then true
  else false

-- ─────────────────────────────────────────────────────────────────────────────
-- Data model (types.ts)
-- ─────────────────────────────────────────────────────────────────────────────

/-- The `{ login: string }` author object of the GitHub schemas. -/
structure Author where
  login : String
deriving DecidableEq

/-- `ReviewSchema`: one review-verdict submission. -/
structure Review where
  author : Option Author
  state : String
  submittedAt : Option Int
  body : Option String
deriving DecidableEq

/-- `PRViewSchema`: PR identity plus its review verdicts. -/
structure PRView where
  title : String
  url : String
  author : Author
  state : String
  createdAt : Int
  updatedAt : Int
  baseRefName : String
  headRefName : String
  reviews : List Review
deriving DecidableEq

/-- `IssueCommentSchema`: one top-level conversation comment. -/
structure IssueComment where
  user : Option Author
  created_at : Int
  body : Option String
  html_url : String
  id : Int
deriving DecidableEq

/-- One message inside an inline thread (`InlineComment.comments` element). -/
structure ThreadComment where
  id : String
  author : String
  createdAt : Int
  body : String
  url : String
deriving DecidableEq

/-- `InlineComment`: one inline review thread anchored to a file position. -/
structure InlineComment where
  path : String
  line : Option Int
  originalLine : Option Int
  isResolved : Bool
  isOutdated : Bool
  comments : List ThreadComment
deriving DecidableEq

/-- `CommentKind = "inline_comment" | "review_body" | "pr_comment"`. -/
inductive CommentKind where
  | inline_comment
  | review_body
  | pr_comment
deriving DecidableEq

/-- The `number | string` type of `NormalizedComment.line`. -/
inductive LineVal where
  | num (n : Int)
  | str (s : String)
deriving DecidableEq

/-- The unified comment shape produced by all three normalizers. -/
structure NormalizedComment where
  id : String
  kind : CommentKind
  author : String
  createdAt : Option Int
  state : Option String
  filePath : Option String
  line : Option LineVal
  isResolved : Option Bool
  body : String
  url : Option String
  isBot : Bool
deriving DecidableEq

/-- `NormalizeResult` returned by `normalizeAll`. -/
structure NormalizeResult where
  comments : List NormalizedComment
  authorLastActivity : Option Int
deriving DecidableEq

-- ─────────────────────────────────────────────────────────────────────────────
-- findAuthorLastActivity (normalize.ts lines 47-77)
-- ─────────────────────────────────────────────────────────────────────────────

/-- The `if (!lastActivity || date > lastActivity) lastActivity = date` update. -/
def updateLastActivity (lastActivity : Option Int) (date : Int) : Option Int :=
  match lastActivity with
  | none => some date
  | some l => if l < date then some date else some l

def findAuthorLastActivity (prAuthor : String) (issueComments : List IssueComment)
    (inlineComments : List InlineComment) : Option Int :=
  let afterIssues := issueComments.foldl
    (fun lastActivity comment =>
      match comment.user with
      | some u =>
        if u.login = prAuthor then updateLastActivity lastActivity comment.created_at
        else lastActivity
      | none => lastActivity)
    none
  inlineComments.foldl
    (fun lastActivity thread =>
      thread.comments.foldl
        (fun lastActivity comment =>
          if comment.author = prAuthor then updateLastActivity lastActivity comment.createdAt
          else lastActivity)
        lastActivity)
    afterIssues

-- ─────────────────────────────────────────────────────────────────────────────
-- normalizeReviews (normalize.ts lines 83-135)
-- ─────────────────────────────────────────────────────────────────────────────

/-- Insertion-order association list lookup (`Map.prototype.get`). -/
def alistGet (m : List (String × Review)) (k : String) : Option Review :=
  match m with
  | [] => none
  | (k', v) :: rest => if k' = k then some v else alistGet rest k

/-- Insertion-order association list update (`Map.prototype.set`): replacing an
existing key keeps its position, a fresh key is appended. -/
def alistSet (m : List (String × Review)) (k : String) (v : Review) :
    List (String × Review) :=
  match m with
  | [] => [(k, v)]
  | (k', v') :: rest =>
    if k' = k then (k', v) :: rest else (k', v') :: alistSet rest k v

/-- The guard `authorLastActivity && review.submittedAt && reviewDate <= authorLastActivity`
of the first loop of `normalizeReviews` (lines 98-101). -/
def boundarySkip (authorLastActivity : Option Int) (submittedAt : Option Int) : Bool :=
  match authorLastActivity, submittedAt with
  | some b, some t => decide (t ≤ b)
  | _, _ => false

/-- One iteration of the first loop of `normalizeReviews` (lines 90-109). -/
def reviewStep (prView : PRView) (authorLastActivity : Option Int)
    (m : List (String × Review)) (review : Review) : List (String × Review) :=
  match review.author with
  | none => m
  | some u =>
    let author := u.login
    if isLikelyBot author then m
    else if author = prView.author.login then m
    else
      -- `if (authorLastActivity && review.submittedAt) { if (reviewDate <= authorLastActivity) continue; }`
      let skip : Bool := boundarySkip authorLastActivity review.submittedAt
      if skip then m
      else
        match alistGet m author with
        | none => alistSet m author review
        | some existing =>
          match review.submittedAt, existing.submittedAt with
          | some t, some te => if te < t then alistSet m author review else m
          | _, _ => m

/-- The `latestByAuthor` map after the first loop of `normalizeReviews`. -/
def latestByAuthor (prView : PRView) (authorLastActivity : Option Int) :
    List (String × Review) :=
  prView.reviews.foldl (reviewStep prView authorLastActivity) []

/-- One iteration of the second loop of `normalizeReviews` (lines 111-132). -/
def emitReview (prView : PRView) (p : String × Review) : Option NormalizedComment :=
  let author := p.1
  let review := p.2
  let hasBody : Bool :=
    match review.body with
    | some b => decide (0 < (jsTrim b).length)
    | none => false
  let isChangesRequested : Bool := review.state == "CHANGES_REQUESTED"
  let isApproved : Bool := review.state == "APPROVED"
  if isApproved && !hasBody then none
  else if !hasBody && !isChangesRequested then none
  else
    some
      { id := "review-" ++ author
        kind := .review_body
        author := author
        createdAt := review.submittedAt
        state := some review.state
        filePath := none
        line := none
        isResolved := none
        body :=
          match review.body with
          | some b => if b = "" then "[" ++ review.state ++ "]" else b
          | none => "[" ++ review.state ++ "]"
        url := some prView.url
        isBot := false }

def normalizeReviews (prView : PRView) (authorLastActivity : Option Int) :
    List NormalizedComment :=
  (latestByAuthor prView authorLastActivity).filterMap (emitReview prView)

-- ─────────────────────────────────────────────────────────────────────────────
-- normalizeIssueComments (normalize.ts lines 141-180)
-- ─────────────────────────────────────────────────────────────────────────────

/-- The body of the loop of `normalizeIssueComments` for one comment. -/
def emitIssueComment (prAuthor : String) (authorLastActivity : Option Int)
    (comment : IssueComment) : Option NormalizedComment :=
  match comment.user with
  | none => none
  | some u =>
    let body := match comment.body with | some b => b | none => ""
    if (jsTrim body).length = 0 then none
    else
      let author := u.login
      if isLikelyBot author then none
      else if author = prAuthor then none
      else
        let skip : Bool :=
          match authorLastActivity with
          | some b => decide (comment.created_at ≤ b)
          | none => false
        if skip then none
        else
          some
            { id := "comment-" ++ toString comment.id
              kind := .pr_comment
              author := author
              createdAt := some comment.created_at
              state := none
              filePath := none
              line := none
              isResolved := none
              body := body
              url := some comment.html_url
              isBot := false }

def normalizeIssueComments (comments : List IssueComment) (prAuthor : String)
    (authorLastActivity : Option Int) : List NormalizedComment :=
  comments.filterMap (emitIssueComment prAuthor authorLastActivity)

-- ─────────────────────────────────────────────────────────────────────────────
-- normalizeInlineComments (normalize.ts lines 186-259)
-- ─────────────────────────────────────────────────────────────────────────────

/-- The `results.push({...})` record built for an inline thread's
representative message (both branch bodies build the identical record). -/
def mkInlineNormalized (thread : InlineComment) (latestComment : ThreadComment) :
    NormalizedComment :=
  { id := "inline-" ++ latestComment.id
    kind := .inline_comment
    author := latestComment.author
    createdAt := some latestComment.createdAt
    state := none
    filePath := some thread.path
    line :=
      -- `thread.line ?? thread.originalLine ?? undefined`
      match thread.line with
      | some n => some (LineVal.num n)
      | none =>
        match thread.originalLine with
        | some n => some (LineVal.num n)
        | none => none
    isResolved := some false
    body := latestComment.body
    url := some latestComment.url
    isBot := false }

/-- The loop body of `normalizeInlineComments` for one thread: `none` models
`continue`, `some` models the single `results.push`. -/
def processInlineThread (prAuthor : String) (thread : InlineComment) :
    Option NormalizedComment :=
  if thread.isResolved then none
  else if thread.isOutdated then none
  else
    let authorReplied := thread.comments.any (fun c => c.author == prAuthor)
    let reviewerComments := thread.comments.filter (fun c =>
      if isLikelyBot c.author then false
      else if c.author == prAuthor then false
      else true)
    if reviewerComments.isEmpty then none
    else if authorReplied then
      -- `authorComments[authorComments.length - 1]`; nonempty since authorReplied
      match (thread.comments.filter (fun c => c.author == prAuthor)).getLast? with
      | none => none
      | some lastAuthorReply =>
        let newComments :=
          reviewerComments.filter (fun c => decide (lastAuthorReply.createdAt < c.createdAt))
        match newComments.getLast? with
        | none => none
        | some latestComment => some (mkInlineNormalized thread latestComment)
    else
      match reviewerComments.getLast? with
      | none => none
      | some latestComment => some (mkInlineNormalized thread latestComment)

def normalizeInlineComments (threads : List InlineComment) (prAuthor : String) :
    List NormalizedComment :=
  threads.filterMap (processInlineThread prAuthor)

-- ─────────────────────────────────────────────────────────────────────────────
-- normalizeAll (normalize.ts lines 270-298)
-- ─────────────────────────────────────────────────────────────────────────────

/-- The sort key of the final sort:
`a.createdAt ? new Date(a.createdAt).getTime() : 0`. -/
def sortKey (c : NormalizedComment) : Int :=
  match c.createdAt with
  | some t => t
  | none => 0

def normalizeAll (prView : PRView) (issueComments : List IssueComment)
    (inlineComments : List InlineComment) : NormalizeResult :=
  let prAuthor := prView.author.login
  let authorLastActivity := findAuthorLastActivity prAuthor issueComments inlineComments
  let allComments :=
    normalizeReviews prView authorLastActivity ++
    normalizeIssueComments issueComments prAuthor authorLastActivity ++
    normalizeInlineComments inlineComments prAuthor
  let sorted := allComments.mergeSort (fun a b => decide (sortKey a ≤ sortKey b))
  { comments := sorted, authorLastActivity := authorLastActivity }

-- ─────────────────────────────────────────────────────────────────────────────
-- Auxiliary definitions used in specifications and witnesses
-- ─────────────────────────────────────────────────────────────────────────────

/-- The guard facts recorded for every entry of the `latestByAuthor` map. -/
def ReviewEntryOk (prView : PRView) (p : String × Review) : Prop :=
  p.2.author = some ⟨p.1⟩ ∧ isLikelyBot p.1 = false ∧ p.1 ≠ prView.author.login

/-- A verdict passes the activity-boundary guard of `normalizeReviews`:
whenever both a boundary and a submission timestamp exist, the timestamp is
strictly after the boundary. -/
def passesBoundary (act : Option Int) (r : Review) : Prop :=
  ∀ b t, act = some b → r.submittedAt = some t → b < t

/-- The data-model assumption that a thread's insertion order is its
chronological order: timestamps are pairwise non-decreasing. -/
def chronologicalThread (t : InlineComment) : Prop :=
  t.comments.Pairwise (fun a b => a.createdAt ≤ b.createdAt)

/-- The verdict kept out of an incumbent `r1` and an incoming `r2` by the
replacement rule of lines 103-108: the incoming one wins only when both carry
timestamps and the incoming timestamp is strictly later. -/
def pickLatest (r1 r2 : Review) : Review :=
  match r1.submittedAt, r2.submittedAt with
  | some t1, some t2 => if t1 < t2 then r2 else r1
  | _, _ => r1

-- ─────────────────────────────────────────────────────────────────────────────
-- Concrete fixtures used by witnesses
-- ─────────────────────────────────────────────────────────────────────────────

/-- A PR authored by `alice` with no reviews. -/
def wPR : PRView := ⟨"t", "u", ⟨"alice"⟩, "OPEN", 0, 0, "main", "feat", []⟩

/-- A conversation comment by `carol`. -/
def wIssue : IssueComment := ⟨some ⟨"carol"⟩, 5, some "hi", "link", 1⟩

/-- The normalized form of `wIssue`. -/
def wComment : NormalizedComment :=
  ⟨"comment-1", .pr_comment, "carol", some 5, none, none, none, none, "hi",
   some "link", false⟩

/-- A resolved inline thread carrying a substantive reviewer message. -/
def wThreadResolved : InlineComment :=
  ⟨"f.ts", some 3, none, true, false, [⟨"m", "dave", 7, "still broken!", "u"⟩]⟩

/-- An unresolved inline thread with one substantive reviewer message. -/
def wThreadOk : InlineComment :=
  ⟨"a.ts", some 1, none, false, false, [⟨"c1", "dave", 100, "hello", "u"⟩]⟩

/-- An unresolved inline thread whose only reviewer message has an empty body. -/
def wThreadEmptyBody : InlineComment :=
  ⟨"a.ts", some 1, none, false, false, [⟨"c1", "dave", 100, "", "u"⟩]⟩

/-- An untimestamped verdict by `bob` with body "first". -/
def wReviewNoTs : Review := ⟨some ⟨"bob"⟩, "COMMENTED", none, some "first"⟩

/-- A timestamped verdict by `bob` with body "second". -/
def wReviewTs : Review := ⟨some ⟨"bob"⟩, "COMMENTED", some 5, some "second"⟩

/-- A PR whose review list is the untimestamped verdict followed by the
timestamped one. -/
def wPR2 : PRView :=
  ⟨"t", "u", ⟨"alice"⟩, "OPEN", 0, 0, "main", "feat", [wReviewNoTs, wReviewTs]⟩

/-- The scenario thread of §8: reviewer question, author reply, follow-up. -/
def wThreadConvo : InlineComment :=
  ⟨"src/a.ts", some 10, none, false, false,
   [⟨"m1", "dave", 1, "why this pattern?", "u1"⟩,
    ⟨"m2", "alice", 2, "because X", "u2"⟩,
    ⟨"m3", "dave", 3, "but what about Y?", "u3"⟩]⟩

-- ─────────────────────────────────────────────────────────────────────────────
-- Helper lemmas: JS string primitives
-- ─────────────────────────────────────────────────────────────────────────────

theorem startsWithChars_map (f : Char → Char) :
    ∀ {l p : List Char}, startsWithChars l p = true →
      startsWithChars (l.map f) (p.map f) = true
  | _, [], _ => by simp [startsWithChars]
  | [], _ :: _, h => by simp [startsWithChars] at h
  | a :: as, b :: bs, h => by
    simp only [startsWithChars, Bool.and_eq_true, beq_iff_eq] at h
    obtain ⟨rfl, h2⟩ := h
    show (f a == f a && startsWithChars (as.map f) (bs.map f)) = true
    rw [Bool.and_eq_true]
    exact ⟨beq_self_eq_true (f a), startsWithChars_map f h2⟩

theorem endsWithChars_map (f : Char → Char) {l p : List Char}
    (h : endsWithChars l p = true) : endsWithChars (l.map f) (p.map f) = true := by
  unfold endsWithChars at h ⊢
  rw [← List.map_reverse, ← List.map_reverse]
  exact startsWithChars_map f h

theorem containsChars_map (f : Char → Char) :
    ∀ {l p : List Char}, containsChars l p = true →
      containsChars (l.map f) (p.map f) = true
  | [], p, h => by
    unfold containsChars at h ⊢
    simp only [Bool.or_eq_true] at h ⊢
    rcases h with h | h
    · exact Or.inl (startsWithChars_map f h)
    · simp at h
  | a :: t, p, h => by
    unfold containsChars at h ⊢
    simp only [Bool.or_eq_true] at h ⊢
    rcases h with h | h
    · exact Or.inl (startsWithChars_map f h)
    · exact Or.inr (containsChars_map f h)

theorem jsEndsWith_toLower {s pat : String} (h : jsEndsWith s pat = true)
    (hpat : jsToLowerCase pat = pat) :
    jsEndsWith (jsToLowerCase s) pat = true := by
  have hd : (jsToLowerCase pat).data = pat.data.map Char.toLower := rfl
  have hfix : pat.data.map Char.toLower = pat.data := by
    rw [← hd, hpat]
  unfold jsEndsWith at h ⊢
  show endsWithChars (s.data.map Char.toLower) pat.data = true
  rw [← hfix]
  exact endsWithChars_map Char.toLower h

theorem jsIncludes_toLower {s pat : String} (h : jsIncludes s pat = true)
    (hpat : jsToLowerCase pat = pat) :
    jsIncludes (jsToLowerCase s) pat = true := by
  have hd : (jsToLowerCase pat).data = pat.data.map Char.toLower := rfl
  have hfix : pat.data.map Char.toLower = pat.data := by
    rw [← hd, hpat]
  unfold jsIncludes at h ⊢
  show containsChars (s.data.map Char.toLower) pat.data = true
  rw [← hfix]
  exact containsChars_map Char.toLower h

/-- `isLikelyBot` is a function of the lowercased identifier alone. -/
theorem isLikelyBot_eq_of_toLower_eq {s t : String}
    (h : jsToLowerCase s = jsToLowerCase t) : isLikelyBot s = isLikelyBot t := by
  unfold isLikelyBot endsWithBot
  rw [h]

theorem jsTrim_empty : jsTrim "" = "" := rfl

theorem ne_empty_of_jsTrim_length {b : String} (h : (jsTrim b).length ≠ 0) :
    b ≠ "" := by
  intro hb
  exact h (by rw [hb]; rfl)

theorem bracket_ne_empty (s : String) : ("[" ++ s ++ "]") ≠ "" := by
  intro h
  have := congrArg String.data h
  simp [String.data_append] at this

-- ─────────────────────────────────────────────────────────────────────────────
-- Helper lemmas: association list and latestByAuthor invariant
-- ─────────────────────────────────────────────────────────────────────────────

theorem mem_alistSet {p : String × Review} :
    ∀ {m : List (String × Review)} {k : String} {v : Review},
      p ∈ alistSet m k v → p = (k, v) ∨ p ∈ m
  | [], k, v, h => by
    simp [alistSet] at h
    exact Or.inl h
  | (k', v') :: rest, k, v, h => by
    unfold alistSet at h
    by_cases hk : k' = k
    · rw [if_pos hk] at h
      rcases List.mem_cons.mp h with h | h
      · subst hk; exact Or.inl h
      · exact Or.inr (List.mem_cons_of_mem _ h)
    · rw [if_neg hk] at h
      rcases List.mem_cons.mp h with h | h
      · exact Or.inr (List.mem_cons.mpr (Or.inl h))
      · rcases mem_alistSet h with h | h
        · exact Or.inl h
        · exact Or.inr (List.mem_cons_of_mem _ h)

theorem reviewStep_preserves {prView : PRView} {act : Option Int}
    {m : List (String × Review)} {r : Review}
    (hm : ∀ q ∈ m, ReviewEntryOk prView q) :
    ∀ q ∈ reviewStep prView act m r, ReviewEntryOk prView q := by
  intro q hq
  unfold reviewStep at hq
  split at hq
  · exact hm q hq
  case h_2 u hr =>
    simp only at hq
    split at hq
    · exact hm q hq
    case isFalse hbot =>
      split at hq
      · exact hm q hq
      case isFalse hself =>
        have hnew : ReviewEntryOk prView (u.login, r) := by
          refine ⟨?_, by simpa using hbot, hself⟩
          simpa using hr
        split at hq
        · exact hm q hq
        · split at hq
          · rcases mem_alistSet hq with h | h
            · rw [h]; exact hnew
            · exact hm q h
          · split at hq
            · split at hq
              · rcases mem_alistSet hq with h | h
                · rw [h]; exact hnew
                · exact hm q h
              · exact hm q hq
            · exact hm q hq

theorem mem_latestByAuthor {prView : PRView} {act : Option Int}
    {p : String × Review} (hp : p ∈ latestByAuthor prView act) :
    ReviewEntryOk prView p := by
  unfold latestByAuthor at hp
  suffices h : ∀ (l : List Review) (m0 : List (String × Review)),
      (∀ q ∈ m0, ReviewEntryOk prView q) →
      ∀ q ∈ l.foldl (reviewStep prView act) m0, ReviewEntryOk prView q by
    exact h prView.reviews [] (by simp) p hp
  intro l
  induction l with
  | nil => intro m0 hm0 q hq; exact hm0 q hq
  | cons r rest ih =>
    intro m0 hm0 q hq
    exact ih (reviewStep prView act m0 r) (reviewStep_preserves hm0) q hq

-- ─────────────────────────────────────────────────────────────────────────────
-- Helper lemmas: emission characterizations
-- ─────────────────────────────────────────────────────────────────────────────

theorem emitReview_eq_some {prView : PRView} {a : String} {r : Review}
    {c : NormalizedComment} (h : emitReview prView (a, r) = some c) :
    c.author = a ∧ c.isBot = false ∧ c.body ≠ "" ∧
    c.createdAt = r.submittedAt ∧ c.kind = CommentKind.review_body := by
  unfold emitReview at h
  simp only at h
  split at h
  · cases h
  · split at h
    · cases h
    · have hc := Option.some.inj h
      subst hc
      refine ⟨rfl, rfl, ?_, rfl, rfl⟩
      cases hb : r.body with
      | none => simp only [hb]; exact bracket_ne_empty r.state
      | some b =>
        simp only [hb]
        by_cases hbe : b = ""
        · rw [if_pos hbe]; exact bracket_ne_empty r.state
        · rw [if_neg hbe]; exact hbe

theorem emitIssueComment_eq_some {prAuthor : String} {act : Option Int}
    {comment : IssueComment} {c : NormalizedComment}
    (h : emitIssueComment prAuthor act comment = some c) :
    ∃ u, comment.user = some u ∧ c.author = u.login ∧
      isLikelyBot u.login = false ∧ u.login ≠ prAuthor ∧
      c.isBot = false ∧ c.body ≠ "" ∧ c.createdAt = some comment.created_at ∧
      (∀ b, act = some b → b < comment.created_at) ∧
      c.kind = CommentKind.pr_comment := by
  unfold emitIssueComment at h
  split at h
  · cases h
  next u hu =>
    simp only at h
    split at h
    · cases h
    next htrim =>
      split at h
      · cases h
      next hbot =>
        split at h
        · cases h
        next hself =>
          split at h
          · cases h
          next hskip =>
            have hc := Option.some.inj h
            subst hc
            refine ⟨u, hu, rfl, by simpa using hbot, hself, rfl,
              ne_empty_of_jsTrim_length htrim, rfl, ?_, rfl⟩
            intro b hb
            rw [hb] at hskip
            simp only [decide_eq_true_eq] at hskip
            omega

theorem inlineCandidate_eq_true {prAuthor : String} {c : ThreadComment} :
    ((if isLikelyBot c.author then false
      else if c.author == prAuthor then false else true) = true) ↔
      (isLikelyBot c.author = false ∧ c.author ≠ prAuthor) := by
  by_cases h1 : isLikelyBot c.author <;> by_cases h2 : c.author = prAuthor <;>
    simp [h1, h2]

theorem processInlineThread_eq_some {prAuthor : String} {thread : InlineComment}
    {nc : NormalizedComment} (h : processInlineThread prAuthor thread = some nc) :
    thread.isResolved = false ∧ thread.isOutdated = false ∧
    ∃ msg, msg ∈ thread.comments ∧ isLikelyBot msg.author = false ∧
      msg.author ≠ prAuthor ∧ nc = mkInlineNormalized thread msg := by
  unfold processInlineThread at h
  split at h
  · cases h
  next hres =>
    split at h
    · cases h
    next hout =>
      refine ⟨by simpa using hres, by simpa using hout, ?_⟩
      simp only at h
      split at h
      · cases h
      · split at h
        · split at h
          · cases h
          next la hla =>
            split at h
            · cases h
            next lc hlc =>
              have hmem := List.mem_of_getLast?_eq_some hlc
              have hmem2 := List.mem_filter.mp hmem
              have hmem3 := List.mem_filter.mp hmem2.1
              obtain ⟨hbot, hne⟩ := inlineCandidate_eq_true.mp hmem3.2
              exact ⟨lc, hmem3.1, hbot, hne, (Option.some.inj h).symm⟩
        · split at h
          · cases h
          next lc hlc =>
            have hmem := List.mem_of_getLast?_eq_some hlc
            have hmem2 := List.mem_filter.mp hmem
            obtain ⟨hbot, hne⟩ := inlineCandidate_eq_true.mp hmem2.2
            exact ⟨lc, hmem2.1, hbot, hne, (Option.some.inj h).symm⟩

/-- Facts shared by every normalized comment in `mkInlineNormalized`. -/
theorem mkInlineNormalized_fields (thread : InlineComment) (msg : ThreadComment) :
    (mkInlineNormalized thread msg).author = msg.author ∧
    (mkInlineNormalized thread msg).isBot = false ∧
    (mkInlineNormalized thread msg).body = msg.body := by
  exact ⟨rfl, rfl, rfl⟩

-- ─────────────────────────────────────────────────────────────────────────────
-- Helper lemmas: membership in the final output
-- ─────────────────────────────────────────────────────────────────────────────

theorem normalizeAll_comments_eq (prView : PRView)
    (issueComments : List IssueComment) (inlineComments : List InlineComment) :
    (normalizeAll prView issueComments inlineComments).comments =
      (normalizeReviews prView
          (findAuthorLastActivity prView.author.login issueComments inlineComments) ++
       normalizeIssueComments issueComments prView.author.login
          (findAuthorLastActivity prView.author.login issueComments inlineComments) ++
       normalizeInlineComments inlineComments prView.author.login).mergeSort
        (fun a b => decide (sortKey a ≤ sortKey b)) := rfl

theorem mem_normalizeAll {prView : PRView} {issueComments : List IssueComment}
    {inlineComments : List InlineComment} {c : NormalizedComment} :
    c ∈ (normalizeAll prView issueComments inlineComments).comments ↔
      (c ∈ normalizeReviews prView
          (findAuthorLastActivity prView.author.login issueComments inlineComments) ∨
       c ∈ normalizeIssueComments issueComments prView.author.login
          (findAuthorLastActivity prView.author.login issueComments inlineComments) ∨
       c ∈ normalizeInlineComments inlineComments prView.author.login) := by
  unfold normalizeAll
  simp only [List.mem_mergeSort, List.mem_append]
  tauto

/-- Every comment of the final output satisfies any property enjoyed by the
outputs of the three stream normalizers. -/
theorem pairwise_le_getLast {α : Type} {f : α → Int} :
    ∀ {l : List α}, l.Pairwise (fun a b => f a ≤ f b) → ∀ {la : α},
      l.getLast? = some la → ∀ x ∈ l, f x ≤ f la := by
  intro l
  induction l with
  | nil => intro _ la h; cases h
  | cons a t ih =>
    intro hp la hla x hx
    cases t with
    | nil =>
      simp only [List.getLast?_singleton, Option.some.injEq] at hla
      subst hla
      rcases List.mem_singleton.mp hx with rfl
      exact le_refl _
    | cons b t' =>
      rw [List.getLast?_cons_cons] at hla
      rcases List.mem_cons.mp hx with rfl | hx'
      · exact (List.pairwise_cons.mp hp).1 la (List.mem_of_getLast?_eq_some hla)
      · exact ih (List.pairwise_cons.mp hp).2 hla x hx'


-- ─────────────────────────────────────────────────────────────────────────────
-- C6: self-comments are never surfaced
-- ─────────────────────────────────────────────────────────────────────────────

/-- Claim C6: for every input, no Normalized Comment in `normalizeAll`'s output
has an author equal to the PR author's identifier, from any of the three
sources. -/
theorem spec_C6_no_self (prView : PRView) (issueComments : List IssueComment)
    (inlineComments : List InlineComment) (c : NormalizedComment)
    (hc : c ∈ (normalizeAll prView issueComments inlineComments).comments) :
    c.author ≠ prView.author.login := by
  rcases mem_normalizeAll.mp hc with h | h | h
  · unfold normalizeReviews at h
    obtain ⟨p, hp, he⟩ := List.mem_filterMap.mp h
    obtain ⟨_, _, hne⟩ := mem_latestByAuthor hp
    obtain ⟨hauth, _⟩ := emitReview_eq_some he
    rw [hauth]
    exact hne
  · unfold normalizeIssueComments at h
    obtain ⟨cm, hcm, he⟩ := List.mem_filterMap.mp h
    obtain ⟨u, _, hauth, _, hne, _⟩ := emitIssueComment_eq_some he
    rw [hauth]
    exact hne
  · unfold normalizeInlineComments at h
    obtain ⟨t, ht, he⟩ := List.mem_filterMap.mp h
    obtain ⟨_, _, msg, _, _, hne, hrec⟩ := processInlineThread_eq_some he
    rw [hrec]
    simpa [mkInlineNormalized] using hne

/-- Witness for C6 at a concrete input producing one comment. -/
theorem spec_C6_witness : wComment.author ≠ wPR.author.login :=
  spec_C6_no_self wPR [wIssue] [] wComment (by
    rw [normalizeAll_comments_eq]
    exact List.mem_mergeSort.mpr (by decide))

-- ─────────────────────────────────────────────────────────────────────────────
-- C7: bot authors are never surfaced
-- ─────────────────────────────────────────────────────────────────────────────

/-- Claim C7: for every input, no Normalized Comment in `normalizeAll`'s output
has an author for which `isLikelyBot` returns true. -/
theorem spec_C7_no_bots (prView : PRView) (issueComments : List IssueComment)
    (inlineComments : List InlineComment) (c : NormalizedComment)
    (hc : c ∈ (normalizeAll prView issueComments inlineComments).comments) :
    isLikelyBot c.author = false := by
  rcases mem_normalizeAll.mp hc with h | h | h
  · unfold normalizeReviews at h
    obtain ⟨p, hp, he⟩ := List.mem_filterMap.mp h
    obtain ⟨_, hbot, _⟩ := mem_latestByAuthor hp
    obtain ⟨hauth, _⟩ := emitReview_eq_some he
    rw [hauth]
    exact hbot
  · unfold normalizeIssueComments at h
    obtain ⟨cm, hcm, he⟩ := List.mem_filterMap.mp h
    obtain ⟨u, _, hauth, hbot, _⟩ := emitIssueComment_eq_some he
    rw [hauth]
    exact hbot
  · unfold normalizeInlineComments at h
    obtain ⟨t, ht, he⟩ := List.mem_filterMap.mp h
    obtain ⟨_, _, msg, _, hbot, _, hrec⟩ := processInlineThread_eq_some he
    rw [hrec]
    simpa [mkInlineNormalized] using hbot

/-- Witness for C7 at a concrete input producing one comment. -/
theorem spec_C7_witness : isLikelyBot wComment.author = false :=
  spec_C7_no_bots wPR [wIssue] [] wComment (by
    rw [normalizeAll_comments_eq]
    exact List.mem_mergeSort.mpr (by decide))

-- ─────────────────────────────────────────────────────────────────────────────
-- C10: the isBot field is hard-coded to false
-- ─────────────────────────────────────────────────────────────────────────────

/-- Claim C10: for every input, every Normalized Comment produced by
`normalizeAll` has `isBot = false`; the flag never takes the value true. -/
theorem spec_C10_isBot_false (prView : PRView) (issueComments : List IssueComment)
    (inlineComments : List InlineComment) (c : NormalizedComment)
    (hc : c ∈ (normalizeAll prView issueComments inlineComments).comments) :
    c.isBot = false := by
  rcases mem_normalizeAll.mp hc with h | h | h
  · unfold normalizeReviews at h
    obtain ⟨p, hp, he⟩ := List.mem_filterMap.mp h
    obtain ⟨_, hbot, _⟩ := emitReview_eq_some he
    exact hbot
  · unfold normalizeIssueComments at h
    obtain ⟨cm, hcm, he⟩ := List.mem_filterMap.mp h
    obtain ⟨u, _, _, _, _, hbot, _⟩ := emitIssueComment_eq_some he
    exact hbot
  · unfold normalizeInlineComments at h
    obtain ⟨t, ht, he⟩ := List.mem_filterMap.mp h
    obtain ⟨_, _, msg, _, _, _, hrec⟩ := processInlineThread_eq_some he
    rw [hrec]
    rfl

/-- Witness for C10 at a concrete input producing one comment. -/
theorem spec_C10_witness : wComment.isBot = false :=
  spec_C10_isBot_false wPR [wIssue] [] wComment (by
    rw [normalizeAll_comments_eq]
    exact List.mem_mergeSort.mpr (by decide))

-- ─────────────────────────────────────────────────────────────────────────────
-- C8: resolved/outdated thread suppression
-- ─────────────────────────────────────────────────────────────────────────────

/-- Claim C8: an inline thread whose resolved flag or outdated flag is true
contributes zero Normalized Comments, regardless of its messages: its per-thread
result is `none`, and deleting it from the thread list leaves the inline
normalizer's output unchanged. -/
theorem spec_C8_suppressed (prAuthor : String) (t : InlineComment)
    (h : t.isResolved = true ∨ t.isOutdated = true) :
    processInlineThread prAuthor t = none ∧
    ∀ pre post : List InlineComment,
      normalizeInlineComments (pre ++ t :: post) prAuthor =
      normalizeInlineComments (pre ++ post) prAuthor := by
  have hnone : processInlineThread prAuthor t = none := by
    unfold processInlineThread
    rcases h with h | h
    · rw [if_pos h]
    · by_cases hres : t.isResolved
      · rw [if_pos hres]
      · rw [if_neg hres, if_pos h]
  refine ⟨hnone, ?_⟩
  intro pre post
  unfold normalizeInlineComments
  rw [List.filterMap_append, List.filterMap_append, List.filterMap_cons, hnone]

/-- Witness for C8: a resolved thread with a substantive reviewer message
yields nothing. -/
theorem spec_C8_witness : processInlineThread "alice" wThreadResolved = none :=
  (spec_C8_suppressed "alice" wThreadResolved (Or.inl rfl)).1

-- ─────────────────────────────────────────────────────────────────────────────
-- C9: the bot predicate
-- ─────────────────────────────────────────────────────────────────────────────

/-- Claim C9: `isLikelyBot` is a pure total function of the author identifier
(it is a Lean function), is case-insensitive (identifiers with the same
lowercasing get the same result), returns true whenever the identifier ends
with the suffix "bot", and returns true whenever the identifier contains any
pattern of the fixed list, which includes the generic markers "[bot]", "-bot"
and "bot-". -/
theorem spec_C9_bot_rules :
    (∀ s t : String, jsToLowerCase s = jsToLowerCase t →
      isLikelyBot s = isLikelyBot t) ∧
    (∀ s : String, jsEndsWith s "bot" = true → isLikelyBot s = true) ∧
    (∀ s p : String, p ∈ BOT_AUTHOR_PATTERNS → jsIncludes s p = true →
      isLikelyBot s = true) ∧
    ("[bot]" ∈ BOT_AUTHOR_PATTERNS ∧ "-bot" ∈ BOT_AUTHOR_PATTERNS ∧
     "bot-" ∈ BOT_AUTHOR_PATTERNS) := by
  refine ⟨?_, ?_, ?_, by decide, by decide, by decide⟩
  · intro s t h
    exact isLikelyBot_eq_of_toLower_eq h
  · intro s h
    have h2 : jsEndsWith (jsToLowerCase s) "bot" = true :=
      jsEndsWith_toLower h (by decide)
    simp [isLikelyBot, endsWithBot, h2]
  · intro s p hp hinc
    have hfix : jsToLowerCase p = p := by
      have hall : ∀ q ∈ BOT_AUTHOR_PATTERNS, jsToLowerCase q = q := by decide
      exact hall p hp
    have h2 : jsIncludes (jsToLowerCase s) p = true := jsIncludes_toLower hinc hfix
    have hany : BOT_AUTHOR_PATTERNS.any
        (fun pattern => jsIncludes (jsToLowerCase s) pattern) = true :=
      List.any_eq_true.mpr ⟨p, hp, h2⟩
    by_cases he : endsWithBot s
    · simp [isLikelyBot, he]
    · simp [isLikelyBot, he, hany]

/-- Witness for C9: concrete applications of each hypothesis-carrying part. -/
theorem spec_C9_witness :
    isLikelyBot "DependaBot" = isLikelyBot "dependabot" ∧
    isLikelyBot "mybot" = true ∧
    isLikelyBot "x[bot]y" = true :=
  ⟨spec_C9_bot_rules.1 "DependaBot" "dependabot" (by decide),
   spec_C9_bot_rules.2.1 "mybot" (by decide),
   spec_C9_bot_rules.2.2.1 "x[bot]y" "[bot]" (by decide) (by decide)⟩

-- ─────────────────────────────────────────────────────────────────────────────
-- C1: the non-empty-body invariant
-- ─────────────────────────────────────────────────────────────────────────────

/-- Claim C1 as stated is false: an unresolved inline thread whose reviewer
message has an empty body yields a Normalized Comment with an empty body. -/
theorem spec_C1_counter :
    (normalizeAll wPR [] [wThreadEmptyBody]).comments.map (fun c => c.body) =
      [""] := by
  have h : (normalizeAll wPR [] [wThreadEmptyBody]).comments =
      List.mergeSort [mkInlineNormalized wThreadEmptyBody ⟨"c1", "dave", 100, "", "u"⟩]
        (fun a b => decide (sortKey a ≤ sortKey b)) := by
    rw [normalizeAll_comments_eq]
    congr 1
  rw [h, List.mergeSort_singleton]
  rfl

/-- Claim C1 amended: review-summary and conversation comments always have a
non-empty body; an inline comment's body is the representative thread
message's body verbatim, so all outputs have non-empty bodies exactly under
the extra assumption that every inline message body in the input is
non-empty. -/
theorem spec_C1_amended :
    (∀ (prView : PRView) (issueComments : List IssueComment)
       (inlineComments : List InlineComment) (c : NormalizedComment),
       c ∈ (normalizeAll prView issueComments inlineComments).comments →
       (c.kind = CommentKind.review_body ∨ c.kind = CommentKind.pr_comment) →
       c.body ≠ "") ∧
    (∀ (prView : PRView) (issueComments : List IssueComment)
       (inlineComments : List InlineComment),
       (∀ t ∈ inlineComments, ∀ m ∈ t.comments, m.body ≠ "") →
       ∀ c ∈ (normalizeAll prView issueComments inlineComments).comments,
       c.body ≠ "") := by
  constructor
  · intro prView issueComments inlineComments c hc hkind
    rcases mem_normalizeAll.mp hc with h | h | h
    · unfold normalizeReviews at h
      obtain ⟨p, hp, he⟩ := List.mem_filterMap.mp h
      obtain ⟨_, _, hbody, _⟩ := emitReview_eq_some he
      exact hbody
    · unfold normalizeIssueComments at h
      obtain ⟨cm, hcm, he⟩ := List.mem_filterMap.mp h
      obtain ⟨u, _, _, _, _, _, hbody, _⟩ := emitIssueComment_eq_some he
      exact hbody
    · unfold normalizeInlineComments at h
      obtain ⟨t, ht, he⟩ := List.mem_filterMap.mp h
      obtain ⟨_, _, msg, _, _, _, hrec⟩ := processInlineThread_eq_some he
      have : c.kind = CommentKind.inline_comment := by rw [hrec]; rfl
      rcases hkind with hk | hk <;> rw [this] at hk <;> cases hk
  · intro prView issueComments inlineComments hinline c hc
    rcases mem_normalizeAll.mp hc with h | h | h
    · unfold normalizeReviews at h
      obtain ⟨p, hp, he⟩ := List.mem_filterMap.mp h
      obtain ⟨_, _, hbody, _⟩ := emitReview_eq_some he
      exact hbody
    · unfold normalizeIssueComments at h
      obtain ⟨cm, hcm, he⟩ := List.mem_filterMap.mp h
      obtain ⟨u, _, _, _, _, _, hbody, _⟩ := emitIssueComment_eq_some he
      exact hbody
    · unfold normalizeInlineComments at h
      obtain ⟨t, ht, he⟩ := List.mem_filterMap.mp h
      obtain ⟨_, _, msg, hmsg, _, _, hrec⟩ := processInlineThread_eq_some he
      have hbody : c.body = msg.body := by rw [hrec]; rfl
      rw [hbody]
      exact hinline t ht msg hmsg

/-- Witness for C1 (amended) at a concrete input producing one inline
comment. -/
theorem spec_C1_witness :
    (mkInlineNormalized wThreadOk ⟨"c1", "dave", 100, "hello", "u"⟩).body ≠ "" :=
  spec_C1_amended.2 wPR [] [wThreadOk] (by decide) _ (by
    rw [normalizeAll_comments_eq]
    exact List.mem_mergeSort.mpr (by decide))

-- ─────────────────────────────────────────────────────────────────────────────
-- C2: latest-verdict-wins
-- ─────────────────────────────────────────────────────────────────────────────

/-- Claim C2 as stated is false: of two verdicts by `bob` of which exactly the
second carries a timestamp, the verdict kept and emitted is the untimestamped
first one ("first", no timestamp), not the timestamped one. -/
theorem spec_C2_counter :
    (normalizeAll wPR2 [] []).comments.map (fun c => (c.body, c.createdAt)) =
      [("first", (none : Option Int))] := by
  have h : (normalizeAll wPR2 [] []).comments =
      List.mergeSort [⟨"review-bob", .review_body, "bob", none, some "COMMENTED",
          none, none, none, "first", some "u", false⟩]
        (fun a b => decide (sortKey a ≤ sortKey b)) := by
    rw [normalizeAll_comments_eq]
    congr 1
  rw [h, List.mergeSort_singleton]
  rfl

/-- Claim C2 amended: grouping keeps, per author, the verdict chosen by a left
fold in which the incoming verdict replaces the incumbent only when both carry
timestamps and the incoming timestamp is strictly later (`pickLatest`).
Consequently, for two verdicts with distinct timestamps the later one is kept
(and its content emitted, subject to the body/verdict emission rules), and an
untimestamped incoming verdict always loses; but an untimestamped incumbent is
never replaced, so when the untimestamped verdict arrives first it is the one
kept. -/
theorem spec_C2_amended (prView : PRView) (act : Option Int) (r1 r2 : Review)
    (a : String)
    (hrev : prView.reviews = [r1, r2])
    (h1 : r1.author = some ⟨a⟩) (h2 : r2.author = some ⟨a⟩)
    (hbot : isLikelyBot a = false) (hself : a ≠ prView.author.login)
    (hp1 : passesBoundary act r1) (hp2 : passesBoundary act r2) :
    latestByAuthor prView act = [(a, pickLatest r1 r2)] ∧
    normalizeReviews prView act =
      (emitReview prView (a, pickLatest r1 r2)).toList := by
  have hskip1 : boundarySkip act r1.submittedAt = false := by
    rcases act with _ | b
    · rfl
    · rcases hts : r1.submittedAt with _ | t
      · rfl
      · have hb := hp1 b t rfl hts
        simp only [boundarySkip, decide_eq_false_iff_not]
        omega
  have hskip2 : boundarySkip act r2.submittedAt = false := by
    rcases act with _ | b
    · rfl
    · rcases hts : r2.submittedAt with _ | t
      · rfl
      · have hb := hp2 b t rfl hts
        simp only [boundarySkip, decide_eq_false_iff_not]
        omega
  have step1 : reviewStep prView act [] r1 = [(a, r1)] := by
    simp [reviewStep, h1, hbot, hself, hskip1, alistGet, alistSet]
  have step2 : reviewStep prView act [(a, r1)] r2 = [(a, pickLatest r1 r2)] := by
    rcases hts1 : r1.submittedAt with _ | t1 <;> rcases hts2 : r2.submittedAt with _ | t2
    · rw [hts2] at hskip2
      simp [reviewStep, h2, hbot, hself, hskip2, hts1, hts2, pickLatest,
        alistGet, alistSet]
    · rw [hts2] at hskip2
      simp [reviewStep, h2, hbot, hself, hskip2, hts1, hts2, pickLatest,
        alistGet, alistSet]
    · rw [hts2] at hskip2
      simp [reviewStep, h2, hbot, hself, hskip2, hts1, hts2, pickLatest,
        alistGet, alistSet]
    · rw [hts2] at hskip2
      by_cases hlt : t1 < t2
      · simp [reviewStep, h2, hbot, hself, hskip2, hts1, hts2, hlt, pickLatest,
          alistGet, alistSet]
      · simp [reviewStep, h2, hbot, hself, hskip2, hts1, hts2, hlt, pickLatest,
          alistGet, alistSet]
  have hmain : latestByAuthor prView act = [(a, pickLatest r1 r2)] := by
    unfold latestByAuthor
    rw [hrev]
    rw [List.foldl_cons, List.foldl_cons, List.foldl_nil, step1, step2]
  refine ⟨hmain, ?_⟩
  unfold normalizeReviews
  rw [hmain]
  cases he : emitReview prView (a, pickLatest r1 r2) <;>
    simp [List.filterMap_cons, he]

/-- Witness for C2 (amended): at the counterexample input the untimestamped
first verdict is the one kept. -/
theorem spec_C2_witness : latestByAuthor wPR2 none = [("bob", wReviewNoTs)] :=
  (spec_C2_amended wPR2 none wReviewNoTs wReviewTs "bob" rfl rfl rfl
    (by decide) (by decide) (fun b t hb => by cases hb) (fun b t hb => by cases hb)).1

-- ─────────────────────────────────────────────────────────────────────────────
-- C5: boundary clearing for conversation comments
-- ─────────────────────────────────────────────────────────────────────────────

/-- Claim C5: when an activity boundary exists, every surviving conversation
comment is strictly after it (comments at or before the boundary are
discarded); and in the reviewer/author-reply/reviewer scenario, the T1 comment
is excluded while the T3 comment is the sole output. -/
theorem spec_C5_boundary :
    (∀ (comments : List IssueComment) (prAuthor : String) (b : Int)
       (nc : NormalizedComment),
       nc ∈ normalizeIssueComments comments prAuthor (some b) →
       ∃ t, nc.createdAt = some t ∧ b < t) ∧
    (∀ (A B C : String) (T1 T2 T3 : Int),
       isLikelyBot B = false → isLikelyBot C = false → B ≠ A → C ≠ A →
       T1 < T2 → T2 < T3 →
       (normalizeAll ⟨"t", "u", ⟨A⟩, "OPEN", 0, 0, "m", "f", []⟩
           [⟨some ⟨B⟩, T1, some "fix the null check", "u1", 1⟩,
            ⟨some ⟨A⟩, T2, some "done", "u2", 2⟩,
            ⟨some ⟨C⟩, T3, some "looks good now", "u3", 3⟩] []).comments =
         [⟨"comment-" ++ toString (3 : Int), .pr_comment, C, some T3, none, none,
           none, none, "looks good now", some "u3", false⟩]) := by
  constructor
  · intro comments prAuthor b nc hmem
    unfold normalizeIssueComments at hmem
    obtain ⟨cm, hcm, he⟩ := List.mem_filterMap.mp hmem
    obtain ⟨u, _, _, _, _, _, _, hts, hbd, _⟩ := emitIssueComment_eq_some he
    exact ⟨cm.created_at, hts, hbd b rfl⟩
  · intro A B C T1 T2 T3 hBbot hCbot hBA hCA h12 h23
    have htrim1 : ¬ ((jsTrim "fix the null check").length = 0) := by decide
    have htrimA : ¬ ((jsTrim "done").length = 0) := by decide
    have htrim3 : ¬ ((jsTrim "looks good now").length = 0) := by decide
    have h12le : T1 ≤ T2 := le_of_lt h12
    have h32 : ¬ (T3 ≤ T2) := by omega
    have hb : findAuthorLastActivity A
        [⟨some ⟨B⟩, T1, some "fix the null check", "u1", 1⟩,
         ⟨some ⟨A⟩, T2, some "done", "u2", 2⟩,
         ⟨some ⟨C⟩, T3, some "looks good now", "u3", 3⟩] [] = some T2 := by
      simp [findAuthorLastActivity, hBA, hCA, updateLastActivity]
    have hc1 : emitIssueComment A (some T2)
        ⟨some ⟨B⟩, T1, some "fix the null check", "u1", 1⟩ = none := by
      simp [emitIssueComment, htrim1, hBbot, hBA, h12le]
    have hca : emitIssueComment A (some T2)
        ⟨some ⟨A⟩, T2, some "done", "u2", 2⟩ = none := by
      by_cases hAbot : isLikelyBot A
      · simp [emitIssueComment, htrimA, hAbot]
      · simp [emitIssueComment, htrimA, hAbot]
    have hc3 : emitIssueComment A (some T2)
        ⟨some ⟨C⟩, T3, some "looks good now", "u3", 3⟩ =
        some ⟨"comment-" ++ toString (3 : Int), .pr_comment, C, some T3, none,
          none, none, none, "looks good now", some "u3", false⟩ := by
      simp [emitIssueComment, htrim3, hCbot, hCA, h32]
    rw [normalizeAll_comments_eq]
    dsimp only
    rw [hb]
    simp [normalizeReviews, latestByAuthor, normalizeIssueComments,
      normalizeInlineComments, List.filterMap_cons, hc1, hca, hc3,
      List.mergeSort_singleton]

/-- Witness for C5: concrete instances of both parts. -/
theorem spec_C5_witness :
    (∃ t, (⟨"comment-9", .pr_comment, "carol", some 50, none, none, none, none,
        "ok", some "u", false⟩ : NormalizedComment).createdAt = some t ∧
        (20 : Int) < t) ∧
    (normalizeAll ⟨"t", "u", ⟨"alice"⟩, "OPEN", 0, 0, "m", "f", []⟩
        [⟨some ⟨"bob"⟩, 10, some "fix the null check", "u1", 1⟩,
         ⟨some ⟨"alice"⟩, 20, some "done", "u2", 2⟩,
         ⟨some ⟨"carol"⟩, 30, some "looks good now", "u3", 3⟩] []).comments =
      [⟨"comment-" ++ toString (3 : Int), .pr_comment, "carol", some 30, none,
        none, none, none, "looks good now", some "u3", false⟩] :=
  ⟨spec_C5_boundary.1 [⟨some ⟨"carol"⟩, 50, some "ok", "u", 9⟩] "alice" 20
      ⟨"comment-9", .pr_comment, "carol", some 50, none, none, none, none,
        "ok", some "u", false⟩ (by decide),
   spec_C5_boundary.2 "alice" "bob" "carol" 10 20 30 (by decide) (by decide)
      (by decide) (by decide) (by decide) (by decide)⟩

-- ─────────────────────────────────────────────────────────────────────────────
-- C3: per-thread restriction to messages after the author's latest reply
-- ─────────────────────────────────────────────────────────────────────────────

/-- Claim C3: for an unresolved, non-outdated, chronologically ordered thread
in which the PR author posted at least one message, with `m` the author's
latest message timestamp in the thread, the inline normalizer restricts the
candidate set (messages by non-bot, non-author users) to messages strictly
after `m`, and emits exactly one Normalized Comment — the last remaining
candidate in thread order — or none if no candidate remains. -/
theorem spec_C3_thread (prAuthor : String) (t : InlineComment) (m : Int)
    (hres : t.isResolved = false) (hout : t.isOutdated = false)
    (hchron : chronologicalThread t)
    (hub : ∀ c ∈ t.comments, c.author = prAuthor → c.createdAt ≤ m)
    (hex : ∃ c ∈ t.comments, c.author = prAuthor ∧ c.createdAt = m) :
    processInlineThread prAuthor t =
      ((t.comments.filter (fun c =>
          if isLikelyBot c.author then false
          else if c.author == prAuthor then false else true)).filter
        (fun c => decide (m < c.createdAt))).getLast?.map
        (mkInlineNormalized t) := by
  obtain ⟨cw, hcw, hcwa, hcwt⟩ := hex
  have hACmem : cw ∈ t.comments.filter (fun c => c.author == prAuthor) :=
    List.mem_filter.mpr ⟨hcw, by simp [hcwa]⟩
  have hACne : t.comments.filter (fun c => c.author == prAuthor) ≠ [] :=
    List.ne_nil_of_mem hACmem
  obtain ⟨la, hla⟩ : ∃ la,
      (t.comments.filter (fun c => c.author == prAuthor)).getLast? = some la := by
    rcases hgl : (t.comments.filter (fun c => c.author == prAuthor)).getLast?
      with _ | la
    · exact absurd (List.getLast?_eq_none_iff.mp hgl) hACne
    · exact ⟨la, hgl⟩
  have hla_filter := List.mem_filter.mp (List.mem_of_getLast?_eq_some hla)
  have hla_author : la.author = prAuthor := by simpa using hla_filter.2
  have hpw : (t.comments.filter (fun c => c.author == prAuthor)).Pairwise
      (fun a b => a.createdAt ≤ b.createdAt) := List.Pairwise.filter _ hchron
  have h1 : la.createdAt ≤ m := hub la hla_filter.1 hla_author
  have h2 : m ≤ la.createdAt := by
    have hcwla : cw.createdAt ≤ la.createdAt :=
      pairwise_le_getLast (f := fun c => c.createdAt) hpw hla cw hACmem
    omega
  have hm : la.createdAt = m := le_antisymm h1 h2
  have hrep : t.comments.any (fun c => c.author == prAuthor) = true :=
    List.any_eq_true.mpr ⟨cw, hcw, by simp [hcwa]⟩
  unfold processInlineThread
  rw [if_neg (by simp [hres]), if_neg (by simp [hout])]
  simp only [hrep, hla, if_true]
  rw [hm]
  cases hemp : (t.comments.filter (fun c =>
      if isLikelyBot c.author then false
      else if c.author == prAuthor then false else true)).isEmpty
  · simp only [hemp, Bool.false_eq_true, if_false]
    cases hg : ((t.comments.filter (fun c =>
        if isLikelyBot c.author then false
        else if c.author == prAuthor then false else true)).filter
          (fun c => decide (m < c.createdAt))).getLast? <;>
      simp [hg]
  · have hnil := List.isEmpty_iff.mp hemp
    rw [hnil]
    simp [hemp]

/-- Witness for C3 at the scenario thread of §8: dave asks, alice replies at
time 2, dave follows up at time 3; the follow-up is the sole output. -/
theorem spec_C3_witness :
    processInlineThread "alice" wThreadConvo =
      some (mkInlineNormalized wThreadConvo
        ⟨"m3", "dave", 3, "but what about Y?", "u3"⟩) := by
  have h := spec_C3_thread "alice" wThreadConvo 2 rfl rfl
    (by unfold chronologicalThread; decide) (by decide) (by decide)
  rw [h]
  decide

-- ─────────────────────────────────────────────────────────────────────────────
-- C4: merged output is stably sorted by timestamp (missing = epoch origin)
-- ─────────────────────────────────────────────────────────────────────────────

theorem sortKey_le_trans : ∀ a b c : NormalizedComment,
    decide (sortKey a ≤ sortKey b) = true → decide (sortKey b ≤ sortKey c) = true →
    decide (sortKey a ≤ sortKey c) = true := by
  intro a b c hab hbc
  simp only [decide_eq_true_eq] at hab hbc ⊢
  omega

theorem sortKey_le_total : ∀ a b : NormalizedComment,
    (decide (sortKey a ≤ sortKey b) || decide (sortKey b ≤ sortKey a)) = true := by
  intro a b
  rcases le_total (sortKey a) (sortKey b) with h | h <;> simp [h]

/-- Stability of the final sort: the subsequence of comments with any given
sort key is unchanged by `mergeSort`. -/
theorem mergeSort_filter_key_eq (L : List NormalizedComment) (k : Int) :
    (L.mergeSort (fun a b => decide (sortKey a ≤ sortKey b))).filter
      (fun c => decide (sortKey c = k)) =
    L.filter (fun c => decide (sortKey c = k)) := by
  have hpw : (L.filter (fun c => decide (sortKey c = k))).Pairwise
      (fun a b => decide (sortKey a ≤ sortKey b) = true) := by
    apply List.pairwise_of_forall_mem_list
    intro a ha b hb
    have ha2 := (List.mem_filter.mp ha).2
    have hb2 := (List.mem_filter.mp hb).2
    simp only [decide_eq_true_eq] at ha2 hb2 ⊢
    omega
  have h1 : List.Sublist (L.filter (fun c => decide (sortKey c = k)))
      (L.mergeSort (fun a b => decide (sortKey a ≤ sortKey b))) :=
    List.sublist_mergeSort sortKey_le_trans sortKey_le_total hpw
      (List.filter_sublist L)
  have h2 := h1.filter (fun c => decide (sortKey c = k))
  have heq : (L.filter (fun c => decide (sortKey c = k))).filter
      (fun c => decide (sortKey c = k)) =
      L.filter (fun c => decide (sortKey c = k)) :=
    List.filter_eq_self.mpr (fun a ha => (List.mem_filter.mp ha).2)
  rw [heq] at h2
  have hperm : List.Perm
      ((L.mergeSort (fun a b => decide (sortKey a ≤ sortKey b))).filter
        (fun c => decide (sortKey c = k)))
      (L.filter (fun c => decide (sortKey c = k))) :=
    (List.mergeSort_perm L _).filter _
  exact (h2.eq_of_length hperm.length_eq.symm).symm

/-- Claim C4: `normalizeAll`'s comment sequence is sorted non-decreasingly by
`sortKey` (the timestamp, with missing timestamps keyed at the epoch origin 0),
and the sort is stable over the concatenation of the three normalizers'
outputs: per sort key, the subsequence is exactly that of the concatenation. -/
theorem spec_C4_sorted (prView : PRView) (issueComments : List IssueComment)
    (inlineComments : List InlineComment) :
    (normalizeAll prView issueComments inlineComments).comments.Pairwise
      (fun a b => sortKey a ≤ sortKey b) ∧
    ∀ k : Int,
      (normalizeAll prView issueComments inlineComments).comments.filter
        (fun c => decide (sortKey c = k)) =
      (normalizeReviews prView
          (findAuthorLastActivity prView.author.login issueComments inlineComments) ++
       normalizeIssueComments issueComments prView.author.login
          (findAuthorLastActivity prView.author.login issueComments inlineComments) ++
       normalizeInlineComments inlineComments prView.author.login).filter
        (fun c => decide (sortKey c = k)) := by
  constructor
  · rw [normalizeAll_comments_eq]
    refine List.Pairwise.imp ?_
      (List.sorted_mergeSort sortKey_le_trans sortKey_le_total _)
    intro a b hab
    simpa using hab
  · intro k
    rw [normalizeAll_comments_eq]
    exact mergeSort_filter_key_eq _ k
